import Mathlib

/-!
Verification development for the repository-analysis engine of
`readme_generator.py` (class `RepositoryAnalyzer`).

Strings from the Python side (file names, path strings, file contents,
summarizer responses) are modelled as `List Char`.  Characters are Unicode
scalars, as in Python; `Char.toLower` models `str.lower` (the inputs involved
are ASCII).  The `mimetypes.guess_type` table is environment data and is
modelled as an oracle function `mimeOf : Str -> Option Str` from the full path
string to the guessed MIME type.  `json.loads` is modelled by an executable
JSON reader defined below.  Filesystem trees are modelled explicitly; a file
whose read raises an `OSError`/decode exception is modelled by a `none`
content.  Recursion over directory trees and over JSON text uses an explicit
fuel argument that is always chosen large enough (fuel strictly exceeds the
structural size of the input), keeping every definition computable by kernel
reduction.
-/

/-- A Python string, modelled as its list of characters. -/
abbrev Str := List Char

/-- Model of `str.lower` (character-wise; the data involved is ASCII). -/
def lowerStr (s : Str) : Str := s.map Char.toLower

/-- Is `needle` a contiguous substring of `hay`?  Models Python's
`needle in hay` on strings. -/
def containsSub (needle hay : Str) : Bool :=
  hay.tails.any (fun t => needle.isPrefixOf t)

/-- POSIX path join: components separated by a single slash. -/
def joinPath : List Str → Str
  | [] => []
  | [x] => x
  | x :: xs => x ++ '/' :: joinPath xs

/-- Index of the last '.' in a name, counted from the front
(models `str.rfind` specialised to '.'). -/
def rfindDot : Str → Option Nat
  | [] => none
  | c :: cs =>
    match rfindDot cs with
    | some i => some (i + 1)
    | none => if c = '.' then some 0 else none

/-- Model of `pathlib.PurePath.suffix` applied to a final path component:
the part of the name from its last dot onward, provided that dot is neither
the first nor the last character; otherwise empty. -/
def pySuffix (name : Str) : Str :=
  match rfindDot name with
  | none => []
  | some i => if 0 < i ∧ i < name.length - 1 then name.drop i else []

/-- Characters treated as line breaks by `str.splitlines`. -/
def isLineBreakChar (c : Char) : Bool :=
  c = '\n' ∨ c = '\r' ∨ c = '\x0b' ∨ c = '\x0c' ∨
  c = '\x1c' ∨ c = '\x1d' ∨ c = '\x1e' ∨ c = '\x85' ∨
  c = '\u2028' ∨ c = '\u2029'

/-- Helper for `countLines`: the flag records whether an unterminated line is
in progress. -/
def countLinesAux : Bool → Str → Nat
  | inLine, [] => if inLine then 1 else 0
  | _, '\r' :: '\n' :: rest => 1 + countLinesAux false rest
  | _, c :: rest =>
    if isLineBreakChar c then 1 + countLinesAux false rest
    else countLinesAux true rest

/-- Model of `len(content.splitlines())`. -/
def countLines (s : Str) : Nat := countLinesAux false s

/-- The content-budgeting operation of the scanner
(`content[:cap] if len(content) > cap else content`): a pure prefix-take
capped at `cap`. -/
def contentBudget (cap : Nat) (content : Str) : Str :=
  if cap < content.length then content.take cap else content

/-- Characters stripped by `str.strip()` (ASCII whitespace; the modelled
inputs contain no exotic Unicode whitespace). -/
def isPyWs (c : Char) : Bool :=
  c = ' ' ∨ c = '\t' ∨ c = '\n' ∨ c = '\r' ∨ c = '\x0b' ∨ c = '\x0c'

/-- Model of `str.strip()`. -/
def pyStrip (s : Str) : Str :=
  ((s.dropWhile isPyWs).reverse.dropWhile isPyWs).reverse

/-- The final component of a POSIX path string (models `Path(p).name` for the
resolved repository root). -/
def baseName (s : Str) : Str :=
  (s.reverse.takeWhile (fun c => c ≠ '/')).reverse

/-!  ## PathFilter: directory skipping and text-file classification  -/

/-- The fixed deny-set of directory names (`skip_dirs` in
`should_skip_directory`). -/
def skip_dirs : List Str :=
  ([ "node_modules", ".git", ".svn", ".hg", "__pycache__",
     ".pytest_cache", ".mypy_cache", "venv", "env", ".env",
     "build", "dist", ".next", ".nuxt", "target", "bin", "obj",
     ".idea", ".vscode", ".vs", "coverage", ".coverage",
     "logs", "log", "tmp", "temp", ".tmp", ".temp" ] : List String).map
    String.toList

/-- Model of `RepositoryAnalyzer.should_skip_directory`. -/
def should_skip_directory (dirName : Str) : Bool :=
  lowerStr dirName ∈ skip_dirs || (dirName.head? = some '.')

/-- The allow-set of extensions (`self.supported_extensions`), transcribed
verbatim from the source, duplicates included (Python stores it as a set, so
list membership here coincides with set membership there). -/
def supported_extensions : List Str :=
  ([ ".py", ".js", ".ts", ".java", ".cpp", ".c", ".h", ".hpp", ".cs", ".php",
     ".rb", ".go", ".rs", ".swift", ".kt", ".kts",
     ".scala", ".r", ".m", ".jl", ".dart", ".pl", ".pm", ".lua", ".groovy",
     ".vb", ".vbs", ".fs", ".fsi", ".fsx", ".f90", ".f95",
     ".f", ".f03", ".f08", ".asm", ".s", ".d", ".nim", ".clj", ".cljs",
     ".cljc", ".edn", ".erl", ".hrl", ".ex", ".exs", ".elm",
     ".ml", ".mli", ".mll", ".mly", ".hs", ".lhs", ".purs", ".ada", ".adb",
     ".ads", ".v", ".sv", ".vhd", ".vhdl", ".cob", ".cbl",
     ".lisp", ".lsp", ".scm", ".rkt", ".ss", ".awk", ".ps1", ".bat", ".cmd",
     ".sh", ".zsh", ".fish", ".tcsh", ".csh", ".bsh",
     ".tcl", ".exp", ".expect", ".bas", ".pas", ".pp", ".dpr", ".go", ".rs",
     ".cr", ".nim", ".vala", ".hx", ".hxsl", ".hxproj",
     ".m", ".mm", ".objc", ".objcpp", ".cu", ".cuh", ".cl", ".opencl",
     ".glsl", ".vert", ".frag", ".comp", ".tesc", ".tese",
     ".geom", ".wgsl", ".metal", ".asm", ".s", ".S", ".d", ".vala", ".vapi",
     ".nim", ".odin", ".zig", ".pony", ".factor",
     ".html", ".htm", ".xhtml", ".xml", ".svg", ".xsd", ".xslt", ".jsp",
     ".asp", ".aspx", ".ejs", ".hbs", ".handlebars", ".mustache",
     ".twig", ".liquid", ".jade", ".pug", ".haml", ".slim", ".mjml", ".md",
     ".markdown", ".rst", ".adoc", ".asciidoc",
     ".tex", ".latex", ".sty", ".cls", ".bib", ".rmd", ".ipynb",
     ".css", ".scss", ".sass", ".less", ".styl", ".pcss", ".sss",
     ".json", ".jsonc", ".json5", ".yaml", ".yml", ".toml", ".ini", ".cfg",
     ".conf", ".env", ".properties", ".prop", ".prefs",
     ".plist", ".rc", ".config", ".tsv", ".csv", ".psv", ".db", ".sqlite",
     ".db3", ".sql", ".dbf",
     ".gradle", ".maven", ".pom", ".sbt", ".cmake", ".make", ".mak", ".mk",
     ".ninja", ".bazel", ".bzl", ".buck", ".build",
     ".pro", ".pri", ".qbs", ".xcconfig", ".xcworkspace", ".xcodeproj",
     ".xcsettings", ".xcuserstate", ".xcuserdata",
     ".nuspec", ".csproj", ".vbproj", ".fsproj", ".sln", ".vcxproj",
     ".vcproj", ".props", ".targets", ".gyp", ".gypi",
     ".am", ".ac", ".m4", ".autogen", ".configure", ".spec", ".ebuild",
     ".exs", ".mix", ".rebar", ".rebar.config",
     ".cargo", ".cargo.toml", ".cargo.lock", ".go.mod", ".go.sum",
     ".composer.json", ".composer.lock", ".package.json",
     ".package-lock.json", ".yarn.lock", ".pnpm-lock.yaml",
     ".requirements.txt", ".Pipfile", ".Pipfile.lock", ".pyproject.toml",
     ".setup.py", ".setup.cfg", ".tox", ".flake8", ".mypy.ini",
     ".pytest.ini", ".coveragerc", ".babelrc", ".eslintrc",
     ".eslintignore", ".prettierrc", ".prettierignore", ".stylelintrc",
     ".stylelintignore", ".editorconfig", ".gitattributes",
     ".gitignore", ".dockerfile", ".docker-compose.yml",
     ".docker-compose.yaml", ".vagrantfile", ".Procfile", ".heroku.yml",
     ".appveyor.yml", ".travis.yml", ".circleci", ".github",
     ".gitlab-ci.yml", ".bitbucket-pipelines.yml", ".azure-pipelines.yml",
     ".jenkinsfile", ".buildkite.yml", ".codeclimate.yml", ".dependabot.yml",
     ".renovate.json", ".sonarcloud.properties",
     ".txt", ".log", ".out", ".err", ".lst", ".list", ".changelog",
     ".changes", ".news", ".todo", ".tasks", ".license", ".licence",
     ".copying", ".notice", ".authors", ".contributors", ".credits",
     ".readme", ".readme.md", ".readme.txt", ".readme.rst" ] :
    List String).map String.toList

/-- The conventional extensionless file names accepted by the third tier of
`is_text_file`. -/
def extensionlessNames : List Str :=
  ([ "makefile", "dockerfile", "readme", "license", "changelog" ] :
    List String).map String.toList

/-- Does the guessed MIME type exist, be truthy and start with `text/`
(models `if mime_type and mime_type.startswith('text/')`)? -/
def mimeIsTextB (m : Option Str) : Bool :=
  match m with
  | some t => ("text/".toList).isPrefixOf t
  | none => false

/-- Model of `RepositoryAnalyzer.is_text_file`.  `m` is the result of the
`mimetypes.guess_type` lookup on the full path string; `name` is the final
path component.  Note the function never looks at the file's bytes. -/
def is_text_file (m : Option Str) (name : Str) : Bool :=
  if lowerStr (pySuffix name) ∈ supported_extensions then true
  else if mimeIsTextB m then true
  else if lowerStr name ∈ extensionlessNames then true
  else false

/-!  ## KeyFileSelector  -/

/-- The fixed manifest/build-descriptor names of
`is_key_file_for_analysis`. -/
def keyManifestNames : List Str :=
  ([ "package.json", "requirements.txt", "pom.xml", "build.gradle",
     "cargo.toml", "go.mod", "composer.json", "pyproject.toml",
     "setup.py", "dockerfile", "docker-compose.yml", "makefile" ] :
    List String).map String.toList

/-- The entry-point substrings of `is_key_file_for_analysis`. -/
def entryPointSubstrings : List Str :=
  ([ "main", "index", "app", "server", "__init__" ] : List String).map
    String.toList

/-- The import-like keywords of `is_key_file_for_analysis`. -/
def importKeywords : List Str :=
  ([ "import", "require", "include", "using", "from" ] : List String).map
    String.toList

/-- Model of `RepositoryAnalyzer.is_key_file_for_analysis`. -/
def is_key_file_for_analysis (name : Str) (content : Str) : Bool :=
  let filename := lowerStr name
  if filename ∈ keyManifestNames then true
  else if entryPointSubstrings.any (fun p => containsSub p filename) then true
  else if 100 < content.length &&
      importKeywords.any (fun k => containsSub k ((lowerStr content).take 500))
    then true
  else false

/-!  ## JSON values and a model of `json.loads`  -/

/-- JSON values as produced by `json.loads`.  Objects are association lists
with unique keys in first-insertion order (the reader below collapses
duplicate keys exactly as Python's `dict` building does).  Numeric literals
are kept as their raw character sequence: no claim inspects numeric values,
only structural shape. -/
inductive Json where
  | null : Json
  | bool (b : Bool) : Json
  | num (raw : Str) : Json
  | str (s : Str) : Json
  | arr (elems : List Json) : Json
  | obj (fields : List (Str × Json)) : Json

/-- Structural equality test on JSON values (models Python `==` on the
decoded values for the structures arising here). -/
def Json.beq : Json → Json → Bool
  | .null, .null => true
  | .bool a, .bool b => a = b
  | .num a, .num b => a = b
  | .str a, .str b => a = b
  | .arr a, .arr b => beqList a b
  | .obj a, .obj b => beqFields a b
  | _, _ => false
where
  beqList : List Json → List Json → Bool
    | [], [] => true
    | x :: xs, y :: ys => Json.beq x y && beqList xs ys
    | _, _ => false
  beqFields : List (Str × Json) → List (Str × Json) → Bool
    | [], [] => true
    | (k, v) :: xs, (k', v') :: ys => k = k' && Json.beq v v' && beqFields xs ys
    | _, _ => false

/-- Python `dict` item assignment `d[k] = v`: replace the value at the first
matching key in place, else append. -/
def dictInsert {α : Type} (k : Str) (v : α) : List (Str × α) → List (Str × α)
  | [] => [(k, v)]
  | (k', v') :: rest =>
    if k' = k then (k', v) :: rest else (k', v') :: dictInsert k v rest

/-- Python `dict.update(src)`: item assignment for every pair of `src` in
order. -/
def dictUpdate {α : Type} (d src : List (Str × α)) : List (Str × α) :=
  src.foldl (fun acc p => dictInsert p.1 p.2 acc) d

/-- Python `dict.get(k)` / `d[k]` lookup (keys are unique, first match). -/
def dictGet? {α : Type} (k : Str) : List (Str × α) → Option α
  | [] => none
  | (k', v) :: rest => if k' = k then some v else dictGet? k rest

/-- JSON insignificant whitespace (as accepted by `json.loads`). -/
def isJsonWs (c : Char) : Bool :=
  c = ' ' ∨ c = '\t' ∨ c = '\n' ∨ c = '\r'

/-- Skip JSON whitespace. -/
def skipWs (s : Str) : Str := s.dropWhile isJsonWs

/-- Decimal digit test. -/
def isDigitC (c : Char) : Bool := '0' ≤ c ∧ c ≤ '9'

/-- Hexadecimal digit value, if any. -/
def hexVal? (c : Char) : Option Nat :=
  if '0' ≤ c ∧ c ≤ '9' then some (c.toNat - '0'.toNat)
  else if 'a' ≤ c ∧ c ≤ 'f' then some (c.toNat - 'a'.toNat + 10)
  else if 'A' ≤ c ∧ c ≤ 'F' then some (c.toNat - 'A'.toNat + 10)
  else none

/-- Decode the body of a JSON string literal (the opening quote already
consumed), returning the decoded characters and the remaining input.  Escape
handling follows `json.loads` in strict mode: raw control characters below
U+0020 are rejected, `\uXXXX` decodes a scalar value (surrogate-pair
recombination is not modelled; no modelled input uses it). -/
def readStringBody : Str → Option (Str × Str)
  | [] => none
  | '"' :: rest => some ([], rest)
  | '\\' :: esc =>
    match esc with
    | '"' :: r => (readStringBody r).map (fun p => ('"' :: p.1, p.2))
    | '\\' :: r => (readStringBody r).map (fun p => ('\\' :: p.1, p.2))
    | '/' :: r => (readStringBody r).map (fun p => ('/' :: p.1, p.2))
    | 'b' :: r => (readStringBody r).map (fun p => ('\x08' :: p.1, p.2))
    | 'f' :: r => (readStringBody r).map (fun p => ('\x0c' :: p.1, p.2))
    | 'n' :: r => (readStringBody r).map (fun p => ('\n' :: p.1, p.2))
    | 'r' :: r => (readStringBody r).map (fun p => ('\r' :: p.1, p.2))
    | 't' :: r => (readStringBody r).map (fun p => ('\t' :: p.1, p.2))
    | 'u' :: h1 :: h2 :: h3 :: h4 :: r =>
      match hexVal? h1, hexVal? h2, hexVal? h3, hexVal? h4 with
      | some a, some b, some c, some d =>
        (readStringBody r).map
          (fun p => (Char.ofNat (a * 4096 + b * 256 + c * 16 + d) :: p.1, p.2))
      | _, _, _, _ => none
    | _ => none
  | c :: rest =>
    if c.toNat < 32 then none
    else (readStringBody rest).map (fun p => (c :: p.1, p.2))

/-- Lex a JSON number starting at the current position, returning its raw
characters and the rest (models the `NUMBER_RE` match of Python's `json`
module: `-?(0|[1-9][0-9]*)(\.[0-9]+)?([eE][+-]?[0-9]+)?`). -/
def lexNumber (s : Str) : Option (Str × Str) :=
  let (sign, s1) :=
    match s with
    | '-' :: r => (['-'], r)
    | _ => (([] : Str), s)
  match s1 with
  | [] => none
  | c :: r =>
    if c = '0' then
      let (frac, r2) := lexFrac r
      let (ex, r3) := lexExp r2
      some (sign ++ '0' :: (frac ++ ex), r3)
    else if isDigitC c then
      let ds := r.takeWhile isDigitC
      let r1 := r.dropWhile isDigitC
      let (frac, r2) := lexFrac r1
      let (ex, r3) := lexExp r2
      some (sign ++ c :: ds ++ frac ++ ex, r3)
    else none
where
  lexFrac : Str → (Str × Str)
    | '.' :: r =>
      if (r.takeWhile isDigitC).isEmpty then ([], '.' :: r)
      else ('.' :: r.takeWhile isDigitC, r.dropWhile isDigitC)
    | s => ([], s)
  lexExp : Str → (Str × Str)
    | e :: r =>
      if e = 'e' ∨ e = 'E' then
        let (sg, r1) :=
          match r with
          | '+' :: r' => (['+'], r')
          | '-' :: r' => (['-'], r')
          | _ => (([] : Str), r)
        if (r1.takeWhile isDigitC).isEmpty then ([], e :: r)
        else (e :: sg ++ r1.takeWhile isDigitC, r1.dropWhile isDigitC)
      else ([], e :: r)
    | [] => ([], [])

/-- Reading mode for the fueled JSON reader: a single value, the items of an
array after its `[`, or the fields of an object after its `{`. -/
inductive JMode where
  | val : JMode
  | items : JMode
  | fields : JMode

/-- Partial results of the fueled JSON reader. -/
inductive JRes where
  | v (j : Json) : JRes
  | vs (l : List Json) : JRes
  | fs (l : List (Str × Json)) : JRes

/-- The core of the `json.loads` model.  Fuel strictly decreases on every
recursive call; `parseJsonStr` supplies fuel exceeding any possible recursion
depth, so the `0` branch is never reached on the call path. -/
def jsonCore : Nat → JMode → Str → Option (JRes × Str)
  | 0, _, _ => none
  | fuel + 1, .val, s =>
    let s := skipWs s
    match s with
    | [] => none
    | '{' :: r =>
      match skipWs r with
      | '}' :: r2 => some (.v (.obj []), r2)
      | r2 =>
        match jsonCore fuel .fields r2 with
        | some (.fs ps, rest) =>
          some (.v (.obj (ps.foldl (fun d p => dictInsert p.1 p.2 d) [])), rest)
        | _ => none
    | '[' :: r =>
      match skipWs r with
      | ']' :: r2 => some (.v (.arr []), r2)
      | r2 =>
        match jsonCore fuel .items r2 with
        | some (.vs es, rest) => some (.v (.arr es), rest)
        | _ => none
    | '"' :: r =>
      match readStringBody r with
      | some (cs, rest) => some (.v (.str cs), rest)
      | none => none
    | c :: _ =>
      if ("true".toList).isPrefixOf s then some (.v (.bool true), s.drop 4)
      else if ("false".toList).isPrefixOf s then some (.v (.bool false), s.drop 5)
      else if ("null".toList).isPrefixOf s then some (.v .null, s.drop 4)
      else if ("NaN".toList).isPrefixOf s then some (.v (.num ("NaN".toList)), s.drop 3)
      else if ("Infinity".toList).isPrefixOf s then
        some (.v (.num ("Infinity".toList)), s.drop 8)
      else if ("-Infinity".toList).isPrefixOf s then
        some (.v (.num ("-Infinity".toList)), s.drop 9)
      else if c = '-' ∨ isDigitC c then
        match lexNumber s with
        | some (raw, rest) => some (.v (.num raw), rest)
        | none => none
      else none
  | fuel + 1, .items, s =>
    match jsonCore fuel .val s with
    | some (.v j, rest) =>
      match skipWs rest with
      | ',' :: r2 =>
        match jsonCore fuel .items r2 with
        | some (.vs es, rest2) => some (.vs (j :: es), rest2)
        | _ => none
      | ']' :: r2 => some (.vs [j], r2)
      | _ => none
    | _ => none
  | fuel + 1, .fields, s =>
    match skipWs s with
    | '"' :: r =>
      match readStringBody r with
      | some (k, rest) =>
        match skipWs rest with
        | ':' :: r2 =>
          match jsonCore fuel .val r2 with
          | some (.v j, rest2) =>
            match skipWs rest2 with
            | ',' :: r3 =>
              match jsonCore fuel .fields r3 with
              | some (.fs ps, rest3) => some (.fs ((k, j) :: ps), rest3)
              | _ => none
            | '}' :: r3 => some (.fs [(k, j)], r3)
            | _ => none
          | _ => none
        | _ => none
      | none => none
    | _ => none

/-- Model of `json.loads`: decode one JSON value and require only whitespace
after it; `none` models a raised `json.JSONDecodeError`. -/
def parseJsonStr (s : Str) : Option Json :=
  match jsonCore (2 * s.length + 8) .val s with
  | some (.v j, rest) => if skipWs rest = [] then some j else none
  | _ => none

/-!  ## The analysis record and the repository scanner  -/

/-- Per-file record stored in `analysis['files']` (lines 128-133). -/
structure FileRecord where
  size : Nat
  lines : Nat
  extension : Str
  content : Str

/-- An entry of the ephemeral AI-context buffer
`analysis['file_contents_for_ai']` (lines 141-145). -/
structure AIEntry where
  path : Str
  content : Str
  extension : Str

/-- The aggregate analysis record.  `files` and `dependencies` model Python
dicts as association lists in first-insertion order with unique keys;
`languages` and `frameworks` model Python sets as insertion-ordered
duplicate-free lists (no claim depends on set iteration order beyond
membership and size).  The unused `structure` field of the source dict stays
empty for the whole run and is omitted.  `technologies` and `project_type`
are `Json.null` until the summarizing phase fills them. -/
structure Analysis where
  repo_name : Str
  repo_path : Str
  files : List (Str × FileRecord)
  languages : List Str
  frameworks : List Json
  dependencies : List (Str × Json)
  config_files : List Str
  total_files : Nat
  total_lines : Nat
  file_contents_for_ai : List AIEntry
  technologies : Json
  project_type : Json

mutual
/-- A node of the scanned directory tree.  A file's `read` field is the
content delivered by `open(..., errors='ignore').read()`, or `none` when the
read raises (the per-file exception caught at lines 150-151). -/
inductive EntryM where
  | file (name : Str) (read : Option Str) : EntryM
  | dir (name : Str) (entries : EntryListM) : EntryM
/-- The ordered listing of one directory (a bespoke list type, so that
recursion through subdirectories stays structural). -/
inductive EntryListM where
  | nil : EntryListM
  | cons (e : EntryM) (es : EntryListM) : EntryListM
end

/-- View a directory listing as an ordinary list of its entries. -/
def toListM : EntryListM → List EntryM
  | .nil => []
  | .cons e es => e :: toListM es

/-- The name of a directory entry. -/
def entryName : EntryM → Str
  | .file n _ => n
  | .dir n _ => n

/-- One file yielded by the `os.walk` traversal: the directory components
below the repository root, the file name, and the read outcome. -/
structure FileEvt where
  comps : List Str
  name : Str
  read : Option Str

/-- `str(relative_file_path)`: the walked file's path relative to the
repository root. -/
def relKey (e : FileEvt) : Str := joinPath (e.comps ++ [e.name])

/-- `str(file_path)`: the walked file's absolute path (the resolved root is
assumed not to end in a slash, as `Path.resolve` guarantees for non-root
paths). -/
def absPath (rootStr : Str) (e : FileEvt) : Str :=
  joinPath (rootStr :: (e.comps ++ [e.name]))

/-- The regular files of one directory, in listing order (the inner
`for file in files` loop of `os.walk`). -/
def filesPart (comps : List Str) (entries : EntryListM) : List FileEvt :=
  (toListM entries).foldr
    (fun e acc =>
      match e with
      | .file n r => ⟨comps, n, r⟩ :: acc
      | .dir _ _ => acc) []

/-- The files yielded below the subdirectories of a directory listing, in
listing order, each subdirectory filtered through `should_skip_directory`
before descent (the `dirs[:] = ...` pruning of line 107). -/
def walkDirs (comps : List Str) : EntryListM → List FileEvt
  | .nil => []
  | .cons (.file _ _) es => walkDirs comps es
  | .cons (.dir n sub) es =>
    (if should_skip_directory n then []
     else filesPart (comps ++ [n]) sub ++ walkDirs (comps ++ [n]) sub) ++
    walkDirs comps es

/-- The file sequence of the pruned `os.walk` traversal: at each directory
the files are yielded first, then each surviving subdirectory is walked in
listing order. -/
def walkAll (comps : List Str) (entries : EntryListM) : List FileEvt :=
  filesPart comps entries ++ walkDirs comps entries

/-- The recognized config/manifest file names of
`detect_basic_file_types`. -/
def configFileNames : List Str :=
  ([ "package.json", "yarn.lock", "package-lock.json",
     "requirements.txt", "pyproject.toml", "setup.py", "pipfile",
     "pom.xml", "build.gradle", "build.gradle.kts",
     "cargo.toml", "cargo.lock",
     "go.mod", "go.sum",
     "composer.json", "composer.lock",
     "dockerfile", "docker-compose.yml",
     "makefile", ".gitignore", "readme.md" ] : List String).map String.toList

/-- Model of `RepositoryAnalyzer.detect_basic_file_types`.  The bare
`except: pass` around the dependency extraction nets out as follows: a parse
failure or a non-object manifest leaves the dependency dict untouched; a
non-object `dependencies` value makes `dict.update` raise before mutating;
if the `devDependencies` update raises after a successful `dependencies`
update, the first in-place mutation is kept. -/
def detect_basic_file_types (name absPathStr content : Str) (a : Analysis) :
    Analysis :=
  let filename := lowerStr name
  let a1 :=
    if filename ∈ configFileNames then
      { a with config_files := a.config_files ++ [absPathStr] }
    else a
  if filename = ("package.json").toList then
    match parseJsonStr content with
    | some (.obj fields) =>
      let d1 :=
        match dictGet? (("dependencies").toList) fields with
        | some (.obj m) => some (dictUpdate a1.dependencies m)
        | some _ => none
        | none => some a1.dependencies
      match d1 with
      | none => a1
      | some d1v =>
        match dictGet? (("devDependencies").toList) fields with
        | some (.obj m) => { a1 with dependencies := dictUpdate d1v m }
        | some _ => { a1 with dependencies := d1v }
        | none => { a1 with dependencies := d1v }
    | _ => a1
  else a1

/-- Per-file processing inside the walk loop (lines 112-151).  The counter
`total_files` is incremented before the read, so a failing read (modelled by
`read = none`) leaves only that increment behind.  The source performs its
sequential in-place dict writes (counter, lines, file record, language set,
AI buffer) on pairwise distinct fields, so they are rendered as one combined
record update here; `detect_basic_file_types` then runs on the result as in
line 148. -/
def processFile (mimeOf : Str → Option Str) (rootStr : Str) (a : Analysis)
    (e : FileEvt) : Analysis :=
  if is_text_file (mimeOf (absPath rootStr e)) e.name then
    match e.read with
    | none => { a with total_files := a.total_files + 1 }
    | some content =>
      detect_basic_file_types e.name (absPath rootStr e) content
        { a with
            total_files := a.total_files + 1,
            total_lines := a.total_lines + countLines content,
            files := dictInsert (relKey e)
              { size := content.length, lines := countLines content,
                extension := pySuffix e.name,
                content := contentBudget 2000 content } a.files,
            languages :=
              if pySuffix e.name ≠ [] then
                (if lowerStr (pySuffix e.name) ∈ a.languages then a.languages
                 else a.languages ++ [lowerStr (pySuffix e.name)])
              else a.languages,
            file_contents_for_ai :=
              if is_key_file_for_analysis e.name content then
                a.file_contents_for_ai ++
                  [⟨relKey e, content.take 1500, pySuffix e.name⟩]
              else a.file_contents_for_ai }
  else a

/-- The analysis record of fresh scanner state (lines 90-102). -/
def initAnalysis (rootStr : Str) : Analysis :=
  { repo_name := baseName rootStr, repo_path := rootStr,
    files := [], languages := [], frameworks := [], dependencies := [],
    config_files := [], total_files := 0, total_lines := 0,
    file_contents_for_ai := [], technologies := Json.null,
    project_type := Json.null }

/-- The analysis record at the end of the Walking phase: fold the per-file
processing over the pruned walk of the tree. -/
def walkAnalysis (mimeOf : Str → Option Str) (rootStr : Str)
    (entries : EntryListM) : Analysis :=
  (walkAll [] entries).foldl (processFile mimeOf rootStr)
    (initAnalysis rootStr)

/-- The excerpts actually consumed when building the summarizer context:
`analysis['file_contents_for_ai'][:10]` (line 205). -/
def aiContextUsed (a : Analysis) : List AIEntry :=
  a.file_contents_for_ai.take 10

/-- Model of `re.search(r'\x7b.*\x7d', s, re.DOTALL)`: the leftmost match of
the greedy pattern runs from the first opening brace that has a closing
brace somewhere after it through the last closing brace of the whole text. -/
def regexBraceSearch (s : Str) : Option Str :=
  match s.findIdx? (fun c => c = '{'),
      s.reverse.findIdx? (fun c => c = '}') with
  | some i, some rj =>
    let j := s.length - 1 - rj
    if i < j then some ((s.drop i).take (j - i + 1)) else none
  | _, _ => none

/-- The fallback dictionary of the framework-detection phase. -/
def defaultAIJson : Json :=
  .obj [ (("frameworks").toList, .arr []),
         (("technologies").toList, .arr []),
         (("project_type").toList, .str (("Unknown").toList)) ]

/-- Model of the response handling of
`ai_detect_frameworks_and_technologies` (lines 251-268): strip the response,
try `json.loads` on the whole of it, else on the greedy brace-match; a decode
failure of the extracted span propagates to the enclosing `except Exception`
handler, which, like the no-match case, yields the default dictionary. -/
def ai_detect (response : Str) : Json :=
  let rc := pyStrip response
  match parseJsonStr rc with
  | some j => j
  | none =>
    match regexBraceSearch rc with
    | some m =>
      match parseJsonStr m with
      | some j => j
      | none => defaultAIJson
    | none => defaultAIJson

/-- Errors that escape `analyze_repository`. -/
inductive ScanError where
  /-- the `ValueError("Repository path does not exist: ...")` of line 88 -/
  | pathNotFound : ScanError
  /-- `.get` called on a non-dict summarizer result (line 156) -/
  | attributeError : ScanError
  /-- `set.update` applied to a non-iterable / unhashable elements (line 156) -/
  | typeError : ScanError
deriving DecidableEq

/-- Can this decoded value be a member of a Python `set`? -/
def jsonHashable : Json → Bool
  | .arr _ => false
  | .obj _ => false
  | _ => true

/-- Python `set.add` modelled on an insertion-ordered duplicate-free list. -/
def setInsertJson (l : List Json) (j : Json) : List Json :=
  if l.any (fun x => Json.beq x j) then l else l ++ [j]

/-- Python `set.update(v)` for a decoded JSON value `v`: iterating a list
adds its elements (raising on unhashable ones), iterating a string adds its
one-character substrings, iterating a dict adds its keys; other values are
not iterable and raise `TypeError`. -/
def setUpdateFromJson (cur : List Json) : Json → Option (List Json)
  | .arr es =>
    if es.all jsonHashable then some (es.foldl setInsertJson cur) else none
  | .str cs => some (cs.foldl (fun acc c => setInsertJson acc (.str [c])) cur)
  | .obj fs => some (fs.foldl (fun acc p => setInsertJson acc (.str p.1)) cur)
  | _ => none

/-- Merging the framework-detection result into the record and finalizing
(lines 156-166): `.get` with defaults on the decoded dict, set-update of
`frameworks`, plain assignment of `technologies` and `project_type`, and the
`del` of the transient AI-context buffer. -/
def mergeAI (a : Analysis) (aiJson : Json) : Except ScanError Analysis :=
  match aiJson with
  | .obj fields =>
    match setUpdateFromJson a.frameworks
        ((dictGet? (("frameworks").toList) fields).getD (.arr [])) with
    | some fws =>
      .ok { a with
              frameworks := fws,
              technologies :=
                (dictGet? (("technologies").toList) fields).getD (.arr []),
              project_type :=
                (dictGet? (("project_type").toList) fields).getD
                  (.str (("Unknown").toList)),
              file_contents_for_ai := [] }
    | none => .error .typeError
  | _ => .error .attributeError

/-- Model of `RepositoryAnalyzer.analyze_repository`.  `fs` is `none` when
the resolved root path does not exist (line 87); `response` is the text the
external summarizer returns for the framework-detection call. -/
def analyze_repository (mimeOf : Str → Option Str)
    (fs : Option EntryListM) (rootStr : Str) (response : Str) :
    Except ScanError Analysis :=
  match fs with
  | none => .error .pathNotFound
  | some entries =>
    mergeAI (walkAnalysis mimeOf rootStr entries) (ai_detect response)

/-!  ## Auxiliary notions used only to state and prove claims  -/

/-- A well-formed file or directory name: nonempty and slash-free (true in
every real directory tree). -/
def okNameB (n : Str) : Bool := !n.isEmpty && !(n.contains '/')

/-- A plausible filesystem snapshot: at every level, sibling names are
pairwise distinct and well-formed. -/
def wfTree : EntryListM → Bool
  | .nil => true
  | .cons (.file n _) es =>
    okNameB n && ((toListM es).all (fun e2 => entryName e2 != n)) && wfTree es
  | .cons (.dir n sub) es =>
    okNameB n && ((toListM es).all (fun e2 => entryName e2 != n)) &&
    wfTree sub && wfTree es

/-- `FileAt entries chain n`: somewhere in the tree `entries` there is a
file named `n` whose ancestor directories below the root are, in order,
named `chain`. -/
inductive FileAt : EntryListM → List Str → Str → Prop where
  | here {entries : EntryListM} {n : Str} {r : Option Str}
      (h : EntryM.file n r ∈ toListM entries) : FileAt entries [] n
  | there {entries : EntryListM} {d : Str} {sub : EntryListM}
      {chain : List Str} {n : Str}
      (h : EntryM.dir d sub ∈ toListM entries) (ht : FileAt sub chain n) :
      FileAt entries (d :: chain) n

/-- The number of text-classified files of the traversal whose read raised
and which were therefore skipped with a warning. -/
def failedReadCount (mimeOf : Str → Option Str) (rootStr : Str)
    (entries : EntryListM) : Nat :=
  ((walkAll [] entries).filter (fun e =>
    is_text_file (mimeOf (absPath rootStr e)) e.name && e.read.isNone)).length

/-- Balanced-brace span extraction helper: the shortest prefix of the input
that closes `d` already-open braces, if any. -/
def takeBalAux : Nat → Str → Option Str
  | _, [] => none
  | d, c :: rest =>
    if c = '{' then (takeBalAux (d + 1) rest).map (fun t => c :: t)
    else if c = '}' then
      if d = 1 then some [c]
      else (takeBalAux (d - 1) rest).map (fun t => c :: t)
    else (takeBalAux d rest).map (fun t => c :: t)

/-- The first balanced-brace substring of a text, as the specification
describes the recovery: at the first position where an opening brace opens a
balanced span, that span.  (Raw brace counting; the "JSON-like" substrings
involved contain no braces inside string literals.) -/
def firstBalancedBrace : Str → Option Str
  | [] => none
  | c :: rest =>
    if c = '{' then
      match takeBalAux 1 rest with
      | some t => some ('{' :: t)
      | none => firstBalancedBrace rest
    else firstBalancedBrace rest

/-- The classification predicate exactly as claim C6 words it: extension in
the allow-set; or, failing that, a MIME type starting with `text/`; or,
failing that, one of the five conventional extensionless names. -/
def isTextFileSpec (m : Option Str) (name : Str) : Prop :=
  lowerStr (pySuffix name) ∈ supported_extensions ∨
  (∃ t, m = some t ∧ ("text/".toList) <+: t) ∨
  lowerStr name ∈ extensionlessNames

/-- Event classification: does the walked file pass `is_text_file`? -/
def isTextEvt (mimeOf : Str → Option Str) (rootStr : Str) (e : FileEvt) :
    Bool :=
  is_text_file (mimeOf (absPath rootStr e)) e.name

/-- The content a successful read delivered (irrelevant default for failed
reads). -/
def evtContent (e : FileEvt) : Str := e.read.getD []

/-- A text-classified file whose read succeeded. -/
def isSuccText (mimeOf : Str → Option Str) (rootStr : Str) (e : FileEvt) :
    Bool :=
  isTextEvt mimeOf rootStr e && e.read.isSome

/-- Does the walked file get selected for the AI-context buffer? -/
def isKeyEvt (e : FileEvt) : Bool :=
  is_key_file_for_analysis e.name (evtContent e)

/-- Does the walked file match the recognized config-file names? -/
def isConfigEvt (e : FileEvt) : Bool :=
  decide (lowerStr e.name ∈ configFileNames)

/-- The `FileRecord` the scanner stores for a successfully read text file. -/
def mkRecord (e : FileEvt) : FileRecord :=
  { size := (evtContent e).length, lines := countLines (evtContent e),
    extension := pySuffix e.name,
    content := contentBudget 2000 (evtContent e) }

/-- The AI-context buffer entry the scanner stores for a key file. -/
def mkAI (e : FileEvt) : AIEntry :=
  ⟨relKey e, (evtContent e).take 1500, pySuffix e.name⟩

/-- The full component path of a walked file (directories plus name). -/
def fullComps (e : FileEvt) : List Str := e.comps ++ [e.name]

/-!  ## Claim C4  -/

/-- Claim C4: started on a root path that does not exist, the scan fails
with the path-not-found error (the `ValueError` of line 88, which the
specification calls NotFoundError) before any traversal, and no partial
analysis record is produced — the result carries no `Analysis` at all. -/
theorem C4_missing_root_aborts (mimeOf : Str → Option Str)
    (rootStr response : Str) :
    analyze_repository mimeOf none rootStr response =
      Except.error ScanError.pathNotFound := rfl

/-!  ## Claim C7  -/

/-- Claim C7: for every content string and budget cap `k`, budgeting returns
the content unchanged when its length is at most `k`, and otherwise exactly
the first `k` characters — in all cases a true prefix — and budgeting is
idempotent. -/
theorem C7_content_budget (k : Nat) (s : Str) :
    (s.length ≤ k → contentBudget k s = s) ∧
    (k < s.length → contentBudget k s = s.take k) ∧
    contentBudget k s <+: s ∧
    contentBudget k (contentBudget k s) = contentBudget k s := by
  refine ⟨fun h => ?_, fun h => ?_, ?_, ?_⟩
  · simp [contentBudget, Nat.not_lt.mpr h]
  · simp [contentBudget, h]
  · by_cases h : k < s.length
    · simpa [contentBudget, h] using List.take_prefix k s
    · simp [contentBudget, h]
  · by_cases h : k < s.length
    · have hlen : ¬ k < (List.take k s).length := by
        simp [List.length_take]
      simp [contentBudget, h, hlen]
    · simp [contentBudget, h]

/-- Witness for C7 at concrete inputs (cap 2 truncates, cap 9 does not). -/
theorem C7_content_budget_witness :
    contentBudget 2 (("abcd").toList) = ("ab").toList ∧
    contentBudget 9 (("abcd").toList) = ("abcd").toList ∧
    contentBudget 2 (contentBudget 2 (("abcd").toList)) =
      contentBudget 2 (("abcd").toList) := by
  refine ⟨?_, ?_, ?_⟩
  · exact ((C7_content_budget 2 (("abcd").toList)).2.1 (by decide)).trans
      (by decide)
  · exact (C7_content_budget 9 (("abcd").toList)).1 (by decide)
  · exact (C7_content_budget 2 (("abcd").toList)).2.2.2

/-!  ## Claim C6  -/

/-- Claim C6: `is_text_file` returns true exactly when the lowercased
extension is in the allow-set, or a MIME lookup yields a `text/*` type, or
the lowercased bare name is one of the five conventional extensionless
names — and false otherwise.  The function takes no file content at all, so
the classification is independent of the file's bytes by construction. -/
theorem C6_is_text_file_characterization (m : Option Str) (name : Str) :
    is_text_file m name = true ↔ isTextFileSpec m name := by
  constructor
  · intro h
    unfold is_text_file at h
    split_ifs at h with h1 h2 h3
    · exact Or.inl h1
    · cases m with
      | none => simp [mimeIsTextB] at h2
      | some t =>
        exact Or.inr (Or.inl ⟨t, rfl,
          List.isPrefixOf_iff_prefix.mp (by simpa [mimeIsTextB] using h2)⟩)
    · exact Or.inr (Or.inr h3)
  · intro h
    unfold is_text_file
    rcases h with h | ⟨t, rfl, hp⟩ | h
    · simp [h]
    · have hm : mimeIsTextB (some t) = true := by
        simpa [mimeIsTextB] using List.isPrefixOf_iff_prefix.mpr hp
      split_ifs <;> simp_all
    · split_ifs <;> simp_all

/-!  ## Claim C10  -/

/-- A dot-free string has no dot to find. -/
theorem rfindDot_eq_none (s : Str) (h : '.' ∉ s) : rfindDot s = none := by
  induction s with
  | nil => rfl
  | cons c cs ih =>
    simp only [List.mem_cons, not_or] at h
    have hc : ¬ (c = '.') := fun e => h.1 e.symm
    simp [rfindDot, ih h.2, hc]

/-- Claim C10: a single-component dotfile name (a leading dot, no further
dot) has an empty extracted extension, so the dot-prefixed full-filename
entries of the allow-set can never match through the extension tier, and
`is_text_file` accepts such a file exactly when the MIME tier or the
extensionless-name tier does. -/
theorem C10_dotfile_empty_extension (rest : Str) (m : Option Str)
    (h : '.' ∉ rest) :
    pySuffix ('.' :: rest) = [] ∧
    (is_text_file m ('.' :: rest) = true ↔
      (mimeIsTextB m = true ∨ lowerStr ('.' :: rest) ∈ extensionlessNames)) := by
  have hsuf : pySuffix ('.' :: rest) = [] := by
    simp [pySuffix, rfindDot, rfindDot_eq_none rest h]
  refine ⟨hsuf, ?_⟩
  unfold is_text_file
  rw [hsuf]
  have hni : lowerStr ([] : Str) ∉ supported_extensions := by decide
  rw [if_neg hni]
  split_ifs with h2 h3 <;> simp_all

/-- Witness for C10 at `.gitignore` (which the allow-set lists as
`'.gitignore'`) with a MIME lookup that yields nothing: the file is
classified non-text. -/
theorem C10_dotfile_empty_extension_witness :
    ('.' ∉ ("gitignore").toList) ∧
    (pySuffix ('.' :: ("gitignore").toList) = [] ∧
      (is_text_file none ('.' :: ("gitignore").toList) = true ↔
        (mimeIsTextB none = true ∨
          lowerStr ('.' :: ("gitignore").toList) ∈ extensionlessNames))) ∧
    is_text_file none ('.' :: ("gitignore").toList) = false := by
  refine ⟨by decide, C10_dotfile_empty_extension (("gitignore").toList) none
    (by decide), by decide⟩

/-!  ## Claims C8 and C9  -/

/-- Build a directory listing from an ordinary list of entries. -/
def listToEntries : List EntryM → EntryListM
  | [] => .nil
  | e :: es => .cons e (listToEntries es)

/-- The fields of a decoded object (empty for non-objects). -/
def objFields : Json → List (Str × Json)
  | .obj f => f
  | _ => []

/-- The length of a decoded array (zero for non-arrays). -/
def arrLen : Json → Nat
  | .arr l => l.length
  | _ => 0

/-- Claim C8: a file named exactly `package.json` whose content is not valid
JSON is processed without any exception escaping the scan (the model is a
total function; the decode error is the caught branch) and leaves the
dependency mapping exactly as it was. -/
theorem C8_malformed_manifest (a : Analysis) (name absPathStr content : Str)
    (hname : lowerStr name = ("package.json").toList)
    (hparse : parseJsonStr content = none) :
    (detect_basic_file_types name absPathStr content a).dependencies =
      a.dependencies := by
  unfold detect_basic_file_types
  simp only [hname, hparse, if_pos]
  split_ifs <;> rfl

/-- A one-file tree holding a malformed package manifest. -/
def malformedManifestTree : EntryListM :=
  listToEntries
    [.file (("package.json").toList) (some (("\x7boops").toList))]

/-- Witness for C8: the concrete content `\x7boops` fails to decode, the
dependency mapping stays empty, and a full scan over a tree containing that
manifest still completes. -/
theorem C8_malformed_manifest_witness :
    parseJsonStr (("\x7boops").toList) = none ∧
    (detect_basic_file_types (("package.json").toList)
        (("/repo/package.json").toList) (("\x7boops").toList)
        (initAnalysis (("/repo").toList))).dependencies =
      (initAnalysis (("/repo").toList)).dependencies ∧
    (analyze_repository (fun _ => none) (some malformedManifestTree)
        (("/repo").toList) (("\x7b\x7d").toList)).isOk = true :=
  ⟨rfl, C8_malformed_manifest _ _ _ _ rfl rfl, rfl⟩

/-- The summarizer reply of the specification's recovery scenario. -/
def exampleResponse : Str :=
  ("Sure! Here you go: \x7b\"frameworks\": [\"Flask\"], \"technologies\": [], \"project_type\": \"API\"\x7d").toList

/-- The object that reply carries. -/
def exampleRecovered : Json :=
  .obj [ (("frameworks").toList, .arr [.str (("Flask").toList)]),
         (("technologies").toList, .arr []),
         (("project_type").toList, .str (("API").toList)) ]

/-- A reply with no recoverable structure at all. -/
def garbageResponse : Str := ("no structured payload here").toList

/-- A reply whose first balanced-brace substring is a valid object but whose
first-to-last-brace span is not valid JSON. -/
def twoObjectResponse : Str :=
  ("a \x7b\"frameworks\": [\"Flask\"]\x7d b \x7b\x7d").toList

/-- Counterexample for C9: the code does not locate the first balanced-brace
JSON-like substring.  On `twoObjectResponse` that substring decodes to an
object carrying one framework, but the greedy regex span (first `\x7b` to
last `\x7d`) is not valid JSON, so the scan degrades to the default result
with zero frameworks. -/
theorem C9_counterexample :
    (firstBalancedBrace (pyStrip twoObjectResponse)).bind parseJsonStr =
      some (.obj [(("frameworks").toList, .arr [.str (("Flask").toList)])]) ∧
    ai_detect twoObjectResponse = defaultAIJson ∧
    arrLen ((dictGet? (("frameworks").toList)
        (objFields (ai_detect twoObjectResponse))).getD .null) = 0 ∧
    arrLen ((dictGet? (("frameworks").toList)
        (objFields (((firstBalancedBrace
          (pyStrip twoObjectResponse)).bind parseJsonStr).getD .null))).getD
        .null) = 1 :=
  ⟨rfl, rfl, rfl, rfl⟩

/-- Claim C9 as amended: when the response is not directly parseable, the
code extracts the greedy first-to-last-brace span and parses that; a reply
with leading prose and a single trailing object (the specification's own
example) is thereby recovered, and whenever neither the whole response nor
the extracted span parses — including when there is no brace pair at all —
the result is the default (empty frameworks/technologies, project type
`Unknown`) and the scan still completes. -/
theorem C9_amended :
    ai_detect exampleResponse = exampleRecovered ∧
    (∀ s, parseJsonStr (pyStrip s) = none →
      (regexBraceSearch (pyStrip s)).bind parseJsonStr = none →
      ai_detect s = defaultAIJson) ∧
    ai_detect garbageResponse = defaultAIJson ∧
    (analyze_repository (fun _ => none)
        (some (listToEntries
          [.file (("main.py").toList) (some (("print(1)\n").toList))]))
        (("/repo").toList) garbageResponse).isOk = true := by
  refine ⟨rfl, ?_, rfl, rfl⟩
  intro s h1 h2
  unfold ai_detect
  simp only [h1]
  cases hm : regexBraceSearch (pyStrip s) with
  | none => simp [hm]
  | some m =>
    have hpm : parseJsonStr m = none := by
      simpa [hm] using h2
    simp [hm, hpm]

/-- Witness for C9's amended universal part, at the garbage reply. -/
theorem C9_amended_witness :
    parseJsonStr (pyStrip garbageResponse) = none ∧
    (regexBraceSearch (pyStrip garbageResponse)).bind parseJsonStr = none ∧
    ai_detect garbageResponse = defaultAIJson :=
  ⟨rfl, rfl, C9_amended.2.1 garbageResponse rfl rfl⟩

/-!  ## Traversal lemmas  -/

theorem filesPart_nil (comps : List Str) : filesPart comps .nil = [] := rfl

theorem filesPart_cons_file (comps : List Str) (n : Str) (r : Option Str)
    (es : EntryListM) :
    filesPart comps (.cons (.file n r) es) =
      ⟨comps, n, r⟩ :: filesPart comps es := rfl

theorem filesPart_cons_dir (comps : List Str) (n : Str) (sub es : EntryListM) :
    filesPart comps (.cons (.dir n sub) es) = filesPart comps es := rfl

theorem walkDirs_cons_dir (comps : List Str) (n : Str) (sub es : EntryListM) :
    walkDirs comps (.cons (.dir n sub) es) =
      (if should_skip_directory n then [] else walkAll (comps ++ [n]) sub) ++
        walkDirs comps es := by
  by_cases h : should_skip_directory n <;> simp [walkDirs, walkAll, h]

theorem walkAll_nil (comps : List Str) : walkAll comps .nil = [] := rfl

theorem walkAll_cons_file (comps : List Str) (n : Str) (r : Option Str)
    (es : EntryListM) :
    walkAll comps (.cons (.file n r) es) =
      ⟨comps, n, r⟩ :: walkAll comps es := by
  simp [walkAll, walkDirs, filesPart_cons_file]

theorem walkAll_cons_dir (comps : List Str) (n : Str) (sub es : EntryListM) :
    walkAll comps (.cons (.dir n sub) es) =
      filesPart comps es ++
        ((if should_skip_directory n then []
          else walkAll (comps ++ [n]) sub) ++ walkDirs comps es) := by
  simp [walkAll, walkDirs_cons_dir, filesPart_cons_dir]

theorem wfTree_cons_file_iff (n : Str) (r : Option Str) (es : EntryListM) :
    wfTree (.cons (.file n r) es) = true ↔
      (okNameB n = true ∧ (∀ e2 ∈ toListM es, entryName e2 ≠ n) ∧
        wfTree es = true) := by
  simp [wfTree, List.all_eq_true, and_assoc]

theorem wfTree_cons_dir_iff (n : Str) (sub es : EntryListM) :
    wfTree (.cons (.dir n sub) es) = true ↔
      (okNameB n = true ∧ (∀ e2 ∈ toListM es, entryName e2 ≠ n) ∧
        wfTree sub = true ∧ wfTree es = true) := by
  simp [wfTree, List.all_eq_true, and_assoc]

theorem FileAt_cons (e : EntryM) {es : EntryListM} {chain : List Str}
    {n : Str} (h : FileAt es chain n) : FileAt (.cons e es) chain n := by
  cases h with
  | here hm => exact .here (List.mem_cons_of_mem _ hm)
  | there hm ht => exact .there (List.mem_cons_of_mem _ hm) ht

theorem FileAt_nil_name {es : EntryListM} {n : Str} (h : FileAt es [] n) :
    n ∈ (toListM es).map entryName := by
  cases h with
  | here hm => exact List.mem_map.mpr ⟨_, hm, rfl⟩

theorem FileAt_cons_name {es : EntryListM} {d : Str} {chain : List Str}
    {n : Str} (h : FileAt es (d :: chain) n) :
    d ∈ (toListM es).map entryName := by
  cases h with
  | there hm ht => exact List.mem_map.mpr ⟨_, hm, rfl⟩

theorem filesPart_mem : ∀ (es : EntryListM) (comps : List Str) (e : FileEvt),
    e ∈ filesPart comps es →
    e.comps = comps ∧ EntryM.file e.name e.read ∈ toListM es
  | .nil, _, _, h => by simp [filesPart_nil] at h
  | .cons (.file n r) es, comps, e, h => by
    rw [filesPart_cons_file] at h
    rcases List.mem_cons.mp h with rfl | h
    · exact ⟨rfl, List.mem_cons_self _ _⟩
    · obtain ⟨h1, h2⟩ := filesPart_mem es comps e h
      exact ⟨h1, List.mem_cons_of_mem _ h2⟩
  | .cons (.dir n sub) es, comps, e, h => by
    rw [filesPart_cons_dir] at h
    obtain ⟨h1, h2⟩ := filesPart_mem es comps e h
    exact ⟨h1, List.mem_cons_of_mem _ h2⟩

theorem walkDirs_mem : ∀ (es : EntryListM) (comps : List Str) (e : FileEvt),
    e ∈ walkDirs comps es →
    ∃ d sub2, EntryM.dir d sub2 ∈ toListM es ∧
      should_skip_directory d = false ∧ e ∈ walkAll (comps ++ [d]) sub2
  | .nil, _, _, h => by simp [walkDirs] at h
  | .cons (.file n r) es, comps, e, h => by
    obtain ⟨d, sub2, h1, h2, h3⟩ := walkDirs_mem es comps e h
    exact ⟨d, sub2, List.mem_cons_of_mem _ h1, h2, h3⟩
  | .cons (.dir n sub) es, comps, e, h => by
    rw [walkDirs_cons_dir] at h
    rcases List.mem_append.mp h with h | h
    · by_cases hskip : should_skip_directory n
      · simp [hskip] at h
      · rw [if_neg hskip] at h
        exact ⟨n, sub, List.mem_cons_self _ _,
          Bool.not_eq_true _ ▸ eq_false_of_ne_true hskip, h⟩
    · obtain ⟨d, sub2, h1, h2, h3⟩ := walkDirs_mem es comps e h
      exact ⟨d, sub2, List.mem_cons_of_mem _ h1, h2, h3⟩

theorem walkAll_mem : ∀ (entries : EntryListM) (comps : List Str)
    (e : FileEvt), e ∈ walkAll comps entries →
    ∃ suf, e.comps = comps ++ suf ∧ FileAt entries suf e.name ∧
      ∀ d ∈ suf, should_skip_directory d = false
  | .nil, comps, e, h => by simp [walkAll_nil] at h
  | .cons (.file n r) es, comps, e, h => by
    rw [walkAll_cons_file] at h
    rcases List.mem_cons.mp h with rfl | h
    · exact ⟨[], by simp, .here (List.mem_cons_self _ _), by simp⟩
    · obtain ⟨suf, h1, h2, h3⟩ := walkAll_mem es comps e h
      exact ⟨suf, h1, FileAt_cons _ h2, h3⟩
  | .cons (.dir n sub) es, comps, e, h => by
    rw [walkAll_cons_dir] at h
    rcases List.mem_append.mp h with h | h
    · obtain ⟨h1, h2⟩ := filesPart_mem es comps e h
      exact ⟨[], by simp [h1], .here (List.mem_cons_of_mem _ h2), by simp⟩
    · rcases List.mem_append.mp h with h | h
      · by_cases hskip : should_skip_directory n
        · simp [hskip] at h
        · rw [if_neg hskip] at h
          obtain ⟨suf, h1, h2, h3⟩ := walkAll_mem sub (comps ++ [n]) e h
          refine ⟨n :: suf, by simp [h1], .there (List.mem_cons_self _ _) h2,
            ?_⟩
          intro d hd
          rcases List.mem_cons.mp hd with rfl | hd
          · exact eq_false_of_ne_true hskip
          · exact h3 d hd
      · have hw : e ∈ walkAll comps es := List.mem_append.mpr (Or.inr h)
        obtain ⟨suf2, g1, g2, g3⟩ := walkAll_mem es comps e hw
        exact ⟨suf2, g1, FileAt_cons _ g2, g3⟩

theorem wf_mem_okName : ∀ (es : EntryListM), wfTree es = true →
    ∀ e ∈ toListM es, okNameB (entryName e) = true
  | .nil, _, e, he => by simp [toListM] at he
  | .cons (.file n r) es, h, e, he => by
    obtain ⟨hok, _, hes⟩ := (wfTree_cons_file_iff n r es).mp h
    rcases List.mem_cons.mp he with rfl | he
    · exact hok
    · exact wf_mem_okName es hes e he
  | .cons (.dir n sub) es, h, e, he => by
    obtain ⟨hok, _, _, hes⟩ := (wfTree_cons_dir_iff n sub es).mp h
    rcases List.mem_cons.mp he with rfl | he
    · exact hok
    · exact wf_mem_okName es hes e he

theorem wf_mem_dir : ∀ (es : EntryListM), wfTree es = true →
    ∀ {d : Str} {sub : EntryListM}, EntryM.dir d sub ∈ toListM es →
    wfTree sub = true
  | .nil, _, _, _, he => by simp [toListM] at he
  | .cons (.file n r) es, h, d, sub, he => by
    obtain ⟨_, _, hes⟩ := (wfTree_cons_file_iff n r es).mp h
    rcases List.mem_cons.mp he with he | he
    · exact absurd he (by simp)
    · exact wf_mem_dir es hes he
  | .cons (.dir n s0) es, h, d, sub, he => by
    obtain ⟨_, _, hsub, hes⟩ := (wfTree_cons_dir_iff n s0 es).mp h
    rcases List.mem_cons.mp he with he | he
    · cases he; exact hsub
    · exact wf_mem_dir es hes he

/-- Along a well-formed tree, every directory of a `FileAt` chain and the
file's own name are well-formed names. -/
theorem FileAt_ok {es : EntryListM} {chain : List Str} {n : Str}
    (h : FileAt es chain n) : wfTree es = true →
    (∀ c ∈ chain, okNameB c = true) ∧ okNameB n = true := by
  induction h with
  | here hm =>
    intro hwf
    exact ⟨by simp, wf_mem_okName _ hwf _ hm⟩
  | there hm ht ih =>
    intro hwf
    obtain ⟨hchain, hn⟩ := ih (wf_mem_dir _ hwf hm)
    have hd := wf_mem_okName _ hwf _ hm
    refine ⟨?_, hn⟩
    intro c hc
    rcases List.mem_cons.mp hc with rfl | hc
    · exact hd
    · exact hchain c hc

theorem okNameB_spec (n : Str) (h : okNameB n = true) :
    n ≠ [] ∧ '/' ∉ n := by
  simp only [okNameB, Bool.and_eq_true, Bool.not_eq_true'] at h
  refine ⟨by simpa [List.isEmpty_iff] using h.1, ?_⟩
  intro hm
  have := h.2
  simp [List.contains, List.elem_eq_mem, hm] at this

theorem slashfree_append_inj : ∀ (x y u v : Str), '/' ∉ x → '/' ∉ y →
    x ++ '/' :: u = y ++ '/' :: v → x = y ∧ u = v
  | [], [], u, v, _, _, h => by simpa using h
  | [], c :: y', u, v, hx, hy, h => by
    simp only [List.nil_append, List.cons_append] at h
    injection h with h1 h2
    exact absurd (h1 ▸ List.mem_cons_self _ _) hy
  | c :: x', [], u, v, hx, hy, h => by
    simp only [List.nil_append, List.cons_append] at h
    injection h with h1 h2
    exact absurd (h1 ▸ List.mem_cons_self _ _) hx
  | c :: x', d :: y', u, v, hx, hy, h => by
    simp only [List.cons_append] at h
    injection h with h1 h2
    obtain ⟨g1, g2⟩ := slashfree_append_inj x' y' u v
      (fun hm => hx (List.mem_cons_of_mem _ hm))
      (fun hm => hy (List.mem_cons_of_mem _ hm)) h2
    exact ⟨by rw [h1, g1], g2⟩

/-- `joinPath` is injective on component lists whose components are nonempty
and slash-free. -/
theorem joinPath_inj : ∀ (xs ys : List Str),
    (∀ c ∈ xs, okNameB c = true) → (∀ c ∈ ys, okNameB c = true) →
    joinPath xs = joinPath ys → xs = ys
  | [], [], _, _, _ => rfl
  | [], y :: ys, hx, hy, h => by
    cases ys with
    | nil =>
      simp only [joinPath] at h
      exact absurd h.symm (okNameB_spec y (hy y (by simp))).1
    | cons y2 ys2 => simp [joinPath] at h
  | x :: xs, [], hx, hy, h => by
    cases xs with
    | nil =>
      simp only [joinPath] at h
      exact absurd h (okNameB_spec x (hx x (by simp))).1
    | cons x2 xs2 => simp [joinPath] at h
  | x :: xs, y :: ys, hx, hy, h => by
    cases xs with
    | nil =>
      cases ys with
      | nil => simp only [joinPath] at h; rw [h]
      | cons y2 ys2 =>
        exfalso
        apply (okNameB_spec x (hx x (by simp))).2
        rw [show joinPath [x] = x from rfl] at h
        rw [h]
        exact List.mem_append_right _ (List.mem_cons_self _ _)
    | cons x2 xs2 =>
      cases ys with
      | nil =>
        exfalso
        apply (okNameB_spec y (hy y (by simp))).2
        rw [show joinPath [y] = y from rfl] at h
        rw [← h]
        exact List.mem_append_right _ (List.mem_cons_self _ _)
      | cons y2 ys2 =>
        obtain ⟨g1, g2⟩ := slashfree_append_inj x y _ _
          (okNameB_spec x (hx x (by simp))).2
          (okNameB_spec y (hy y (by simp))).2 h
        have g3 := joinPath_inj (x2 :: xs2) (y2 :: ys2)
          (fun c hc => hx c (List.mem_cons_of_mem _ hc))
          (fun c hc => hy c (List.mem_cons_of_mem _ hc)) g2
        rw [g1, g3]

/-- Over a well-formed tree, the walked files' full component paths are
pairwise distinct. -/
theorem walkAll_nodup : ∀ (entries : EntryListM) (comps : List Str),
    wfTree entries = true →
    ((walkAll comps entries).map fullComps).Nodup
  | .nil, comps, _ => by simp [walkAll_nil]
  | .cons (.file n r) es, comps, h => by
    obtain ⟨hok, hfresh, hes⟩ := (wfTree_cons_file_iff n r es).mp h
    rw [walkAll_cons_file, List.map_cons]
    refine List.nodup_cons.mpr ⟨?_, walkAll_nodup es comps hes⟩
    intro hmem
    obtain ⟨e', he', heq⟩ := List.mem_map.mp hmem
    obtain ⟨suf, h1, h2, _⟩ := walkAll_mem es comps e' he'
    have hx : comps ++ (suf ++ [e'.name]) = comps ++ [n] := by
      simpa [fullComps, h1] using heq
    have hy : suf ++ [e'.name] = [n] := List.append_cancel_left hx
    cases suf with
    | cons a b => simp at hy
    | nil =>
      simp only [List.nil_append] at hy
      have hname : e'.name = n := by injection hy
      obtain ⟨e2, he2, hEq⟩ := List.mem_map.mp (FileAt_nil_name h2)
      exact hfresh e2 he2 (hEq.trans hname)
  | .cons (.dir n sub) es, comps, h => by
    obtain ⟨hok, hfresh, hsub, hes⟩ := (wfTree_cons_dir_iff n sub es).mp h
    by_cases hskip : should_skip_directory n
    · have heq : walkAll comps (.cons (.dir n sub) es) = walkAll comps es := by
        rw [walkAll_cons_dir, if_pos hskip]
        simp [walkAll]
      rw [heq]
      exact walkAll_nodup es comps hes
    · rw [walkAll_cons_dir, if_neg hskip]
      simp only [List.map_append]
      have hes2 : ((filesPart comps es).map fullComps ++
          (walkDirs comps es).map fullComps).Nodup := by
        simpa [walkAll, List.map_append] using walkAll_nodup es comps hes
      obtain ⟨nF, nB, dFB⟩ := List.nodup_append.mp hes2
      have nA := walkAll_nodup sub (comps ++ [n]) hsub
      have shapeA : ∀ x ∈ (walkAll (comps ++ [n]) sub).map fullComps,
          ∃ t, x = comps ++ n :: t := by
        intro x hx
        obtain ⟨e1, he1, rfl⟩ := List.mem_map.mp hx
        obtain ⟨suf, h1, _, _⟩ := walkAll_mem sub (comps ++ [n]) e1 he1
        exact ⟨suf ++ [e1.name], by simp [fullComps, h1]⟩
      have shapeF : ∀ x ∈ (filesPart comps es).map fullComps,
          ∃ fn, x = comps ++ [fn] ∧ fn ∈ (toListM es).map entryName := by
        intro x hx
        obtain ⟨e1, he1, rfl⟩ := List.mem_map.mp hx
        obtain ⟨h1, h2⟩ := filesPart_mem es comps e1 he1
        exact ⟨e1.name, by simp [fullComps, h1],
          List.mem_map.mpr ⟨_, h2, rfl⟩⟩
      have shapeB : ∀ x ∈ (walkDirs comps es).map fullComps,
          ∃ d t, x = comps ++ d :: t ∧ d ∈ (toListM es).map entryName := by
        intro x hx
        obtain ⟨e1, he1, rfl⟩ := List.mem_map.mp hx
        obtain ⟨d, sub2, hm, _, hin⟩ := walkDirs_mem es comps e1 he1
        obtain ⟨suf, h1, _, _⟩ := walkAll_mem sub2 (comps ++ [d]) e1 hin
        exact ⟨d, suf ++ [e1.name], by simp [fullComps, h1],
          List.mem_map.mpr ⟨_, hm, rfl⟩⟩
      have hfreshName : ∀ fn ∈ (toListM es).map entryName, fn ≠ n := by
        intro fn hfn
        obtain ⟨e2, he2, rfl⟩ := List.mem_map.mp hfn
        exact hfresh e2 he2
      have dFA : List.Disjoint ((filesPart comps es).map fullComps)
          ((walkAll (comps ++ [n]) sub).map fullComps) := by
        intro x hxF hxA
        obtain ⟨fn, rfl, hfn⟩ := shapeF x hxF
        obtain ⟨t, hteq⟩ := shapeA _ hxA
        have : ([fn] : List Str) = n :: t := List.append_cancel_left hteq
        have : fn = n := by injection this
        exact hfreshName fn hfn this
      have dAB : List.Disjoint ((walkAll (comps ++ [n]) sub).map fullComps)
          ((walkDirs comps es).map fullComps) := by
        intro x hxA hxB
        obtain ⟨t, rfl⟩ := shapeA x hxA
        obtain ⟨d, t', hteq, hd⟩ := shapeB _ hxB
        have : (n :: t : List Str) = d :: t' := List.append_cancel_left hteq
        have hnd : n = d := by injection this
        exact hfreshName d hd hnd.symm
      refine List.nodup_append.mpr ⟨nF,
        List.nodup_append.mpr ⟨nA, nB, dAB⟩, ?_⟩
      intro x hxF hxAB
      rcases List.mem_append.mp hxAB with hxA | hxB
      · exact dFA hxF hxA
      · exact dFB hxF hxB

/-- Over a well-formed tree, every walked file's components are well-formed
names. -/
theorem walk_comps_ok (entries : EntryListM) (h : wfTree entries = true)
    (e : FileEvt) (he : e ∈ walkAll [] entries) :
    ∀ c ∈ fullComps e, okNameB c = true := by
  obtain ⟨suf, h1, h2, _⟩ := walkAll_mem entries [] e he
  obtain ⟨hchain, hname⟩ := FileAt_ok h2 h
  intro c hc
  have hc2 : c ∈ suf ∨ c = e.name := by simpa [fullComps, h1] using hc
  rcases hc2 with hc2 | rfl
  · exact hchain c hc2
  · exact hname

/-- Over a well-formed tree, the walked files' relative path strings are
pairwise distinct. -/
theorem walk_keys_nodup (entries : EntryListM) (h : wfTree entries = true) :
    ((walkAll [] entries).map relKey).Nodup := by
  have h1 := walkAll_nodup entries [] h
  have hmm : (walkAll [] entries).map relKey =
      ((walkAll [] entries).map fullComps).map joinPath := by
    rw [List.map_map]
    exact List.map_congr_left (fun e _ => rfl)
  rw [hmm]
  refine List.Nodup.map_on ?_ h1
  intro x hx y hy hxy
  obtain ⟨e1, he1, rfl⟩ := List.mem_map.mp hx
  obtain ⟨e2, he2, rfl⟩ := List.mem_map.mp hy
  exact joinPath_inj _ _ (walk_comps_ok entries h e1 he1)
    (walk_comps_ok entries h e2 he2) hxy

/-- A fresh key is appended by Python dict item assignment. -/
theorem dictInsert_fresh {α : Type} (k : Str) (v : α) :
    ∀ (l : List (Str × α)), k ∉ l.map Prod.fst →
    dictInsert k v l = l ++ [(k, v)]
  | [], _ => rfl
  | (k', v') :: rest, h => by
    simp only [List.map_cons, List.mem_cons, not_or] at h
    have hne : ¬ (k' = k) := fun e => h.1 e.symm
    simp [dictInsert, hne, dictInsert_fresh k v rest h.2]

theorem detect_basic_files_eq (name p content : Str) (a : Analysis) :
    (detect_basic_file_types name p content a).files = a.files := by
  simp only [detect_basic_file_types]
  split_ifs <;> (repeat' split) <;> rfl

theorem detect_basic_total_files_eq (name p content : Str) (a : Analysis) :
    (detect_basic_file_types name p content a).total_files = a.total_files := by
  simp only [detect_basic_file_types]
  split_ifs <;> (repeat' split) <;> rfl

theorem detect_basic_total_lines_eq (name p content : Str) (a : Analysis) :
    (detect_basic_file_types name p content a).total_lines = a.total_lines := by
  simp only [detect_basic_file_types]
  split_ifs <;> (repeat' split) <;> rfl

theorem detect_basic_buffer_eq (name p content : Str) (a : Analysis) :
    (detect_basic_file_types name p content a).file_contents_for_ai =
      a.file_contents_for_ai := by
  simp only [detect_basic_file_types]
  split_ifs <;> (repeat' split) <;> rfl

theorem detect_basic_config_eq (name p content : Str) (a : Analysis) :
    (detect_basic_file_types name p content a).config_files =
      (if lowerStr name ∈ configFileNames then a.config_files ++ [p]
       else a.config_files) := by
  simp only [detect_basic_file_types]
  split_ifs <;> (repeat' split) <;> rfl

theorem processFile_files (mimeOf : Str → Option Str) (rootStr : Str)
    (a : Analysis) (e : FileEvt)
    (hfresh : relKey e ∉ a.files.map Prod.fst) :
    (processFile mimeOf rootStr a e).files =
      a.files ++ (if isSuccText mimeOf rootStr e
        then [(relKey e, mkRecord e)] else []) := by
  obtain ⟨cs, nm, rd⟩ := e
  by_cases ht : is_text_file (mimeOf (absPath rootStr ⟨cs, nm, rd⟩)) nm
  · cases rd with
    | none => simp [processFile, isSuccText, isTextEvt, ht]
    | some c =>
      have hsucc : isSuccText mimeOf rootStr ⟨cs, nm, some c⟩ = true := by
        simp [isSuccText, isTextEvt, ht]
      simp only [processFile]
      rw [if_pos ht, detect_basic_files_eq, hsucc]
      rw [dictInsert_fresh _ _ _ hfresh]
      simp [mkRecord, evtContent]
  · simp [processFile, isSuccText, isTextEvt, ht]

theorem processFile_total_files (mimeOf : Str → Option Str) (rootStr : Str)
    (a : Analysis) (e : FileEvt) :
    (processFile mimeOf rootStr a e).total_files =
      a.total_files + (if isTextEvt mimeOf rootStr e then 1 else 0) := by
  obtain ⟨cs, nm, rd⟩ := e
  by_cases ht : is_text_file (mimeOf (absPath rootStr ⟨cs, nm, rd⟩)) nm
  · cases rd with
    | none => simp [processFile, isTextEvt, ht]
    | some c =>
      simp only [processFile]
      rw [if_pos ht, detect_basic_total_files_eq]
      simp [isTextEvt, ht]
  · simp [processFile, isTextEvt, ht]

theorem processFile_total_lines (mimeOf : Str → Option Str) (rootStr : Str)
    (a : Analysis) (e : FileEvt) :
    (processFile mimeOf rootStr a e).total_lines =
      a.total_lines + (if isSuccText mimeOf rootStr e
        then countLines (evtContent e) else 0) := by
  obtain ⟨cs, nm, rd⟩ := e
  by_cases ht : is_text_file (mimeOf (absPath rootStr ⟨cs, nm, rd⟩)) nm
  · cases rd with
    | none => simp [processFile, isSuccText, isTextEvt, ht]
    | some c =>
      have hsucc : isSuccText mimeOf rootStr ⟨cs, nm, some c⟩ = true := by
        simp [isSuccText, isTextEvt, ht]
      simp only [processFile]
      rw [if_pos ht, detect_basic_total_lines_eq, hsucc]
      simp [evtContent]
  · simp [processFile, isSuccText, isTextEvt, ht]

theorem processFile_buffer (mimeOf : Str → Option Str) (rootStr : Str)
    (a : Analysis) (e : FileEvt) :
    (processFile mimeOf rootStr a e).file_contents_for_ai =
      a.file_contents_for_ai ++
        (if isSuccText mimeOf rootStr e && isKeyEvt e then [mkAI e]
         else []) := by
  obtain ⟨cs, nm, rd⟩ := e
  by_cases ht : is_text_file (mimeOf (absPath rootStr ⟨cs, nm, rd⟩)) nm
  · cases rd with
    | none => simp [processFile, isSuccText, isTextEvt, ht]
    | some c =>
      have hsucc : isSuccText mimeOf rootStr ⟨cs, nm, some c⟩ = true := by
        simp [isSuccText, isTextEvt, ht]
      simp only [processFile]
      rw [if_pos ht, detect_basic_buffer_eq, hsucc]
      by_cases hk : is_key_file_for_analysis nm c
      · simp [isKeyEvt, evtContent, hk, mkAI]
      · simp [isKeyEvt, evtContent, hk]
  · simp [processFile, isSuccText, isTextEvt, ht]

theorem processFile_config (mimeOf : Str → Option Str) (rootStr : Str)
    (a : Analysis) (e : FileEvt) :
    (processFile mimeOf rootStr a e).config_files =
      a.config_files ++
        (if isSuccText mimeOf rootStr e && isConfigEvt e
         then [absPath rootStr e] else []) := by
  obtain ⟨cs, nm, rd⟩ := e
  by_cases ht : is_text_file (mimeOf (absPath rootStr ⟨cs, nm, rd⟩)) nm
  · cases rd with
    | none => simp [processFile, isSuccText, isTextEvt, ht]
    | some c =>
      have hsucc : isSuccText mimeOf rootStr ⟨cs, nm, some c⟩ = true := by
        simp [isSuccText, isTextEvt, ht]
      simp only [processFile]
      rw [if_pos ht, detect_basic_config_eq, hsucc]
      by_cases hc : lowerStr nm ∈ configFileNames
      · simp [isConfigEvt, hc]
      · simp [isConfigEvt, hc]
  · simp [processFile, isSuccText, isTextEvt, ht]

/-- Folding the per-file processing over a walk segment with pairwise-fresh
keys appends exactly the records of the successfully read text files, counts
every text-classified file, and sums the line counts of the successfully
read ones. -/
theorem foldl_stats (mimeOf : Str → Option Str) (rootStr : Str) :
    ∀ (evts : List FileEvt) (a : Analysis),
    ((a.files.map Prod.fst) ++ evts.map relKey).Nodup →
    ((evts.foldl (processFile mimeOf rootStr) a).files =
        a.files ++ (evts.filter (isSuccText mimeOf rootStr)).map
          (fun e => (relKey e, mkRecord e)) ∧
      (evts.foldl (processFile mimeOf rootStr) a).total_files =
        a.total_files + evts.countP (isTextEvt mimeOf rootStr) ∧
      (evts.foldl (processFile mimeOf rootStr) a).total_lines =
        a.total_lines + ((evts.filter (isSuccText mimeOf rootStr)).map
          (fun e => countLines (evtContent e))).sum)
  | [], a, _ => by simp
  | e :: evts, a, h => by
    have hfresh : relKey e ∉ a.files.map Prod.fst := by
      obtain ⟨h1, h2, h3⟩ := List.nodup_append.mp h
      intro hm
      exact h3 hm (List.mem_cons_self _ _)
    have hnext : (((processFile mimeOf rootStr a e).files.map Prod.fst) ++
        evts.map relKey).Nodup := by
      rw [processFile_files mimeOf rootStr a e hfresh]
      by_cases hs : isSuccText mimeOf rootStr e
      · rw [if_pos hs]
        have heq : (((a.files ++ [(relKey e, mkRecord e)]).map Prod.fst) ++
            evts.map relKey) =
            a.files.map Prod.fst ++ (relKey e :: evts.map relKey) := by
          simp
        rw [heq]
        simpa using h
      · rw [if_neg hs]
        have hsub : List.Sublist (a.files.map Prod.fst ++ evts.map relKey)
            (a.files.map Prod.fst ++ (relKey e :: evts.map relKey)) := by
          refine List.Sublist.append_left ?_ _
          exact List.sublist_cons_self _ _
        simp only [List.append_nil]
        exact hsub.nodup (by simpa using h)
    obtain ⟨f1, f2, f3⟩ :=
      foldl_stats mimeOf rootStr evts (processFile mimeOf rootStr a e) hnext
    simp only [List.foldl_cons]
    refine ⟨?_, ?_, ?_⟩
    · rw [f1, processFile_files mimeOf rootStr a e hfresh]
      by_cases hs : isSuccText mimeOf rootStr e <;>
        simp [hs, List.filter_cons, List.append_assoc]
    · rw [f2, processFile_total_files]
      rw [List.countP_cons]
      by_cases hs : isTextEvt mimeOf rootStr e <;> simp [hs] <;> omega
    · rw [f3, processFile_total_lines]
      by_cases hs : isSuccText mimeOf rootStr e <;>
        simp [hs, List.filter_cons] <;> omega

/-- Folding the per-file processing appends exactly the AI-buffer entries of
the key files and the absolute paths of the recognized config files, in walk
order, duplicates preserved. -/
theorem foldl_buffer_config (mimeOf : Str → Option Str) (rootStr : Str) :
    ∀ (evts : List FileEvt) (a : Analysis),
    ((evts.foldl (processFile mimeOf rootStr) a).file_contents_for_ai =
        a.file_contents_for_ai ++
          (evts.filter (fun e => isSuccText mimeOf rootStr e && isKeyEvt e)).map
            mkAI ∧
      (evts.foldl (processFile mimeOf rootStr) a).config_files =
        a.config_files ++
          (evts.filter
            (fun e => isSuccText mimeOf rootStr e && isConfigEvt e)).map
            (absPath rootStr))
  | [], a => by simp
  | e :: evts, a => by
    obtain ⟨f1, f2⟩ :=
      foldl_buffer_config mimeOf rootStr evts (processFile mimeOf rootStr a e)
    simp only [List.foldl_cons]
    refine ⟨?_, ?_⟩
    · rw [f1, processFile_buffer]
      by_cases hs : (isSuccText mimeOf rootStr e && isKeyEvt e) = true <;>
        simp [hs, List.filter_cons, List.append_assoc]
    · rw [f2, processFile_config]
      by_cases hs : (isSuccText mimeOf rootStr e && isConfigEvt e) = true <;>
        simp [hs, List.filter_cons, List.append_assoc]

/-- The summarizing/finalizing phase touches only `frameworks`,
`technologies`, `project_type` and the dropped buffer — never the file
mapping, the counters or the config-file sequence. -/
theorem mergeAI_preserve {a : Analysis} {j : Json} {a' : Analysis}
    (h : mergeAI a j = Except.ok a') :
    a'.files = a.files ∧ a'.total_files = a.total_files ∧
    a'.total_lines = a.total_lines ∧ a'.config_files = a.config_files := by
  cases j with
  | obj fields =>
    simp only [mergeAI] at h
    cases hs : setUpdateFromJson a.frameworks
        ((dictGet? (("frameworks").toList) fields).getD (.arr [])) with
    | none => rw [hs] at h; exact Except.noConfusion h
    | some fws =>
      rw [hs] at h
      injection h with h2
      subst h2
      exact ⟨rfl, rfl, rfl, rfl⟩
  | null => simp [mergeAI] at h
  | bool b => simp [mergeAI] at h
  | num raw => simp [mergeAI] at h
  | str s => simp [mergeAI] at h
  | arr elems => simp [mergeAI] at h

/-- `failedReadCount` through the event classifiers. -/
theorem failedReadCount_eq (mimeOf : Str → Option Str) (rootStr : Str)
    (entries : EntryListM) :
    failedReadCount mimeOf rootStr entries =
      ((walkAll [] entries).filter
        (fun e => isTextEvt mimeOf rootStr e && e.read.isNone)).length := rfl

/-- Every text-classified event is either a successful read or a failed
read, so the text count splits accordingly. -/
theorem countP_text_split (mimeOf : Str → Option Str) (rootStr : Str) :
    ∀ (l : List FileEvt),
    l.countP (isTextEvt mimeOf rootStr) =
      (l.filter (isSuccText mimeOf rootStr)).length +
      (l.filter (fun e => isTextEvt mimeOf rootStr e && e.read.isNone)).length
  | [] => rfl
  | e :: l => by
    have ih := countP_text_split mimeOf rootStr l
    rw [List.countP_cons, List.filter_cons, List.filter_cons]
    by_cases ht : isTextEvt mimeOf rootStr e
    · cases hr : e.read with
      | none => simp [isSuccText, ht, hr, ih]; omega
      | some c => simp [isSuccText, ht, hr, ih]; omega
    · simp [isSuccText, ht, ih]

/-!  ## Claim C1  -/

/-- Claim C1 as amended: for every completed scan over a plausible tree,
`total_lines` always equals the sum of the stored line counts, but
`total_files` equals the number of FileRecord entries PLUS the number of
text-classified files whose read raised (the counter is incremented before
the read, so a skipped file still counts); the claimed equality holds
exactly when no per-file read fails. -/
theorem C1_amended (mimeOf : Str → Option Str) (rootStr response : Str)
    (entries : EntryListM) (a : Analysis)
    (hwf : wfTree entries = true)
    (hok : analyze_repository mimeOf (some entries) rootStr response =
      Except.ok a) :
    a.total_lines = (a.files.map (fun p => p.2.lines)).sum ∧
    a.total_files = a.files.length +
      failedReadCount mimeOf rootStr entries := by
  have hm : mergeAI (walkAnalysis mimeOf rootStr entries)
      (ai_detect response) = Except.ok a := hok
  obtain ⟨p1, p2, p3, _⟩ := mergeAI_preserve hm
  have hnod : ((initAnalysis rootStr).files.map Prod.fst ++
      (walkAll [] entries).map relKey).Nodup := by
    simpa [initAnalysis] using walk_keys_nodup entries hwf
  obtain ⟨f1, f2, f3⟩ := foldl_stats mimeOf rootStr (walkAll [] entries)
    (initAnalysis rootStr) hnod
  have hW : walkAnalysis mimeOf rootStr entries =
      (walkAll [] entries).foldl (processFile mimeOf rootStr)
        (initAnalysis rootStr) := rfl
  constructor
  · rw [p3, p1, hW, f3, f1]
    simp [initAnalysis, List.map_map, mkRecord]
    rfl
  · rw [p2, p1, hW, f2, f1, failedReadCount_eq,
      countP_text_split mimeOf rootStr]
    simp [initAnalysis]

/-- Extract the record of a completed scan (irrelevant default otherwise). -/
def resultOf (r : Except ScanError Analysis) : Analysis :=
  match r with
  | .ok x => x
  | .error _ => initAnalysis []

/-- A tree whose single text file fails to read. -/
def c1Tree : EntryListM := listToEntries [.file (("a.py").toList) none]

/-- The completed scan over `c1Tree`. -/
def c1Final : Analysis :=
  resultOf (analyze_repository (fun _ => none) (some c1Tree)
    (("/repo").toList) (("\x7b\x7d").toList))

/-- Counterexample for C1: a completed scan in which one per-file read
raised has `total_files = 1` but an empty FileRecord mapping — the claimed
equality fails for runs with failing reads. -/
theorem C1_counterexample :
    (analyze_repository (fun _ => none) (some c1Tree) (("/repo").toList)
        (("\x7b\x7d").toList)).isOk = true ∧
    c1Final.total_files = 1 ∧ c1Final.files.length = 0 ∧
    c1Final.total_files ≠ c1Final.files.length :=
  ⟨rfl, rfl, rfl, by decide⟩

/-- A well-formed tree with one failing and one successful read. -/
def c1wTree : EntryListM :=
  listToEntries
    [.file (("a.py").toList) none,
     .file (("b.py").toList) (some (("x\ny\n").toList))]

/-- The completed scan over `c1wTree`. -/
def c1wFinal : Analysis :=
  resultOf (analyze_repository (fun _ => none) (some c1wTree)
    (("/repo").toList) (("\x7b\x7d").toList))

/-- Witness for the amended C1 at a concrete two-file tree with one failed
read. -/
theorem C1_amended_witness :
    wfTree c1wTree = true ∧
    analyze_repository (fun _ => none) (some c1wTree) (("/repo").toList)
        (("\x7b\x7d").toList) = Except.ok c1wFinal ∧
    (c1wFinal.total_lines = (c1wFinal.files.map (fun p => p.2.lines)).sum ∧
      c1wFinal.total_files = c1wFinal.files.length +
        failedReadCount (fun _ => none) (("/repo").toList) c1wTree) :=
  ⟨by decide, rfl,
    C1_amended (fun _ => none) (("/repo").toList) (("\x7b\x7d").toList)
      c1wTree c1wFinal (by decide) rfl⟩

/-!  ## Claim C2  -/

/-- Eleven key files (each name contains the entry-point substring `main`
and carries the `.py` extension). -/
def c2Tree : EntryListM :=
  listToEntries ((List.range 11).map (fun i =>
    .file ((("main").toList) ++ [Char.ofNat (97 + i)] ++ ((".py").toList))
      (some (("x = 1\n").toList))))

/-- Counterexample for C2: with eleven key files the AI-context buffer holds
eleven entries during the scan — its length is not bounded by 10. -/
theorem C2_counterexample :
    (walkAnalysis (fun _ => none) (("/repo").toList)
        c2Tree).file_contents_for_ai.length = 11 ∧
    ¬ ((walkAnalysis (fun _ => none) (("/repo").toList)
        c2Tree).file_contents_for_ai.length ≤ 10) :=
  ⟨rfl, by decide⟩

/-- Claim C2 as amended: the ephemeral buffer grows by one entry for every
key file the traversal accepts, without any bound; the cap of 10 is enforced
only at consumption, where the summarizer context takes at most the first
ten entries (`[:10]`, line 205). -/
theorem C2_amended (mimeOf : Str → Option Str) (rootStr : Str)
    (entries : EntryListM) :
    (walkAnalysis mimeOf rootStr entries).file_contents_for_ai.length =
      ((walkAll [] entries).filter
        (fun e => isSuccText mimeOf rootStr e && isKeyEvt e)).length ∧
    (aiContextUsed (walkAnalysis mimeOf rootStr entries)).length ≤ 10 := by
  obtain ⟨f1, _⟩ := foldl_buffer_config mimeOf rootStr (walkAll [] entries)
    (initAnalysis rootStr)
  constructor
  · have hW : walkAnalysis mimeOf rootStr entries =
        (walkAll [] entries).foldl (processFile mimeOf rootStr)
          (initAnalysis rootStr) := rfl
    rw [hW, f1]
    simp [initAnalysis]
  · simp [aiContextUsed]

/-!  ## Claim C3  -/

/-- A tree with one recognized config file. -/
def c3Tree : EntryListM :=
  listToEntries [.file (("package.json").toList) (some (("\x7b\x7d").toList))]

/-- Counterexample for C3: the element appended to the config-file sequence
is the file's absolute path `/repo/package.json`, not its path relative to
the repository root. -/
theorem C3_counterexample :
    (walkAnalysis (fun _ => none) (("/repo").toList) c3Tree).config_files =
      [("/repo/package.json").toList] ∧
    (("/repo/package.json").toList) ≠ (("package.json").toList) :=
  ⟨rfl, by decide⟩

/-- Claim C3 as amended: the config-file sequence of a completed scan is
exactly the successfully read text files whose lowercased bare name is in
the recognized list, in discovery order with duplicates preserved — each
recorded by its ABSOLUTE path (`str(file_path)`, line 287), not its
root-relative path. -/
theorem C3_amended (mimeOf : Str → Option Str) (rootStr response : Str)
    (entries : EntryListM) (a : Analysis)
    (hok : analyze_repository mimeOf (some entries) rootStr response =
      Except.ok a) :
    a.config_files = ((walkAll [] entries).filter
      (fun e => isSuccText mimeOf rootStr e && isConfigEvt e)).map
        (absPath rootStr) := by
  have hm : mergeAI (walkAnalysis mimeOf rootStr entries)
      (ai_detect response) = Except.ok a := hok
  obtain ⟨_, _, _, p4⟩ := mergeAI_preserve hm
  obtain ⟨_, f2⟩ := foldl_buffer_config mimeOf rootStr (walkAll [] entries)
    (initAnalysis rootStr)
  have hW : walkAnalysis mimeOf rootStr entries =
      (walkAll [] entries).foldl (processFile mimeOf rootStr)
        (initAnalysis rootStr) := rfl
  rw [p4, hW, f2]
  simp [initAnalysis]

/-- The completed scan over `c3Tree`. -/
def c3Final : Analysis :=
  resultOf (analyze_repository (fun _ => none) (some c3Tree)
    (("/repo").toList) (("\x7b\x7d").toList))

/-- Witness for the amended C3 at the one-manifest tree. -/
theorem C3_amended_witness :
    analyze_repository (fun _ => none) (some c3Tree) (("/repo").toList)
        (("\x7b\x7d").toList) = Except.ok c3Final ∧
    c3Final.config_files = ((walkAll [] c3Tree).filter
      (fun e => isSuccText (fun _ => none) (("/repo").toList) e &&
        isConfigEvt e)).map (absPath (("/repo").toList)) ∧
    c3Final.config_files = [("/repo/package.json").toList] :=
  ⟨rfl,
    C3_amended (fun _ => none) (("/repo").toList) (("\x7b\x7d").toList)
      c3Tree c3Final rfl, rfl⟩

/-!  ## Claim C5  -/

/-- Claim C5: over a plausible tree, for every directory of the tree whose
name the deny-set matches or which starts with a dot, no file beneath it, at
any depth, appears in the FileRecord mapping of the completed scan.  The
file is identified by its chain of ancestor directories (`FileAt`), and its
would-be key is its root-relative path string. -/
theorem C5_pruned_dirs (mimeOf : Str → Option Str)
    (rootStr response : Str) (entries : EntryListM) (a : Analysis)
    (chain : List Str) (fname : Str)
    (hwf : wfTree entries = true)
    (hok : analyze_repository mimeOf (some entries) rootStr response =
      Except.ok a)
    (hat : FileAt entries chain fname)
    (hskip : ∃ d ∈ chain, should_skip_directory d = true) :
    joinPath (chain ++ [fname]) ∉ a.files.map Prod.fst := by
  have hm : mergeAI (walkAnalysis mimeOf rootStr entries)
      (ai_detect response) = Except.ok a := hok
  obtain ⟨p1, _, _, _⟩ := mergeAI_preserve hm
  have hnod : ((initAnalysis rootStr).files.map Prod.fst ++
      (walkAll [] entries).map relKey).Nodup := by
    simpa [initAnalysis] using walk_keys_nodup entries hwf
  obtain ⟨f1, _, _⟩ := foldl_stats mimeOf rootStr (walkAll [] entries)
    (initAnalysis rootStr) hnod
  have hW : walkAnalysis mimeOf rootStr entries =
      (walkAll [] entries).foldl (processFile mimeOf rootStr)
        (initAnalysis rootStr) := rfl
  rw [p1, hW, f1]
  intro hmem
  simp only [initAnalysis, List.nil_append, List.map_map,
    List.mem_map] at hmem
  obtain ⟨e, heF, hkey⟩ := hmem
  have hewalk : e ∈ walkAll [] entries := List.mem_of_mem_filter heF
  obtain ⟨suf, h1, h2, h3⟩ := walkAll_mem entries [] e hewalk
  have hokE : ∀ c ∈ fullComps e, okNameB c = true :=
    walk_comps_ok entries hwf e hewalk
  have hokC : ∀ c ∈ chain ++ [fname], okNameB c = true := by
    obtain ⟨hc1, hc2⟩ := FileAt_ok hat hwf
    intro c hc
    rcases List.mem_append.mp hc with hc | hc
    · exact hc1 c hc
    · rw [List.mem_singleton.mp hc]
      exact hc2
  have hkey2 : joinPath (fullComps e) = joinPath (chain ++ [fname]) := hkey
  have hcomp : fullComps e = chain ++ [fname] :=
    joinPath_inj _ _ hokE hokC hkey2
  have hsplit : suf ++ [e.name] = chain ++ [fname] := by
    simpa [fullComps, h1] using hcomp
  obtain ⟨hsuf, -⟩ := List.append_inj' hsplit rfl
  obtain ⟨d, hd_mem, hd_skip⟩ := hskip
  rw [← hsuf] at hd_mem
  rw [h3 d hd_mem] at hd_skip
  exact Bool.noConfusion hd_skip

/-- A tree with a file inside a pruned `node_modules` directory. -/
def c5wTree : EntryListM :=
  listToEntries
    [.dir (("node_modules").toList)
      (listToEntries [.file (("x.js").toList) (some (("z\n").toList))]),
     .dir (("src").toList)
      (listToEntries
        [.file (("main.py").toList) (some (("print(1)\n").toList))])]

/-- The completed scan over `c5wTree`. -/
def c5wFinal : Analysis :=
  resultOf (analyze_repository (fun _ => none) (some c5wTree)
    (("/repo").toList) (("\x7b\x7d").toList))

/-- Witness for C5: `node_modules/x.js` never appears among the scan's file
keys, while the scan itself completes and indexes `src/main.py`. -/
theorem C5_pruned_dirs_witness :
    wfTree c5wTree = true ∧
    should_skip_directory (("node_modules").toList) = true ∧
    analyze_repository (fun _ => none) (some c5wTree) (("/repo").toList)
        (("\x7b\x7d").toList) = Except.ok c5wFinal ∧
    joinPath ([("node_modules").toList] ++ [("x.js").toList]) ∉
      c5wFinal.files.map Prod.fst ∧
    c5wFinal.files.map Prod.fst = [("src/main.py").toList] := by
  refine ⟨by decide, by decide, rfl, ?_, rfl⟩
  refine C5_pruned_dirs (fun _ => none) (("/repo").toList)
    (("\x7b\x7d").toList) c5wTree c5wFinal [("node_modules").toList]
    (("x.js").toList) (by decide) rfl ?_ ?_
  · exact FileAt.there (List.Mem.head _) (FileAt.here (List.Mem.head _))
  · exact ⟨("node_modules").toList, List.mem_singleton.mpr rfl, by decide⟩
